import Mathlib

/-!
Verification of the heuristic core of a simple e-commerce intelligence
code base: the statistical forecasting engine (`forecasting_simple.py`),
the keyword sentiment / keyword extraction / pseudo-embedding heuristics
(`ai_engine_simple.py`) and the product-ranking fallbacks
(`vector_search.py`).

Modelling conventions:
* Python floats are modelled as `ℚ` (every constant appearing in the code
  is a decimal literal, and the claimed properties are order comparisons).
* Text is modelled as `List Char` (or `String` where the code hashes the
  UTF-8 encoding of the string).
* Database-supplied rows (sales history, the product catalog) are plain
  lists passed as arguments; the SQL `WHERE`/`ORDER BY`/`LIMIT` clauses of
  each query are modelled as `filter`/stable sort/`take` over those lists.
-/

namespace ECommerce

structure ForecastPoint where
  period : Nat
  value : ℚ
  confidence : ℚ
  deriving DecidableEq, Repr

/-- Python's `statistics.mean`; every call site guards against the empty
list, on which `statistics.mean` would raise. -/
def mean (xs : List ℚ) : ℚ := xs.sum / xs.length

/-- Python's slice `l[-n:]` (the last `n` elements). -/
def lastN (n : Nat) (l : List ℚ) : List ℚ := l.drop (l.length - n)

/-- `_calculate_moving_average_forecast`: average of the last 7
observations (mean of all of them if fewer than 7, the constant 1 if the
series is empty), repeated for `periods` points at confidence 0.8. -/
def calculate_moving_average_forecast (sales_data : List ℚ) (periods : Nat) :
    List ForecastPoint :=
  let avg_sales : ℚ :=
    if sales_data.length < 7 then
      if sales_data.isEmpty then 1 else mean sales_data
    else
      mean (lastN 7 sales_data)
  (List.range periods).map (fun i => ⟨i + 1, avg_sales, 0.8⟩)

/-- `_calculate_trend_forecast`: recent-week vs prior-week trend ratio,
value `avg * (1 + trend * (i+1))` floored at 0, confidence 0.75.  The
Python slice `sales_data[-14:-7]` is `drop (len-14)` then `take 7`. -/
def calculate_trend_forecast (sales_data : List ℚ) (periods : Nat) :
    List ForecastPoint :=
  let at_ : ℚ × ℚ :=
    if sales_data.length < 2 then
      (if sales_data.isEmpty then 100 else mean sales_data, 0)
    else
      let recent_sales := lastN 7 sales_data
      let older_sales :=
        if 14 ≤ sales_data.length then
          (sales_data.drop (sales_data.length - 14)).take 7
        else recent_sales
      let recent_avg := mean recent_sales
      let older_avg := mean older_sales
      (recent_avg, (recent_avg - older_avg) / max older_avg 1)
  (List.range periods).map
    (fun i => ⟨i + 1, max 0 (at_.1 * (1 + at_.2 * ((i : ℚ) + 1))), 0.75⟩)

/-- The per-weekday factor of `_calculate_seasonal_forecast`:
1.2 on Friday/Saturday (`weekday() ∈ [4, 5]`), 0.9 on Monday (0). -/
def seasonal_factor (day_of_week : Nat) : ℚ :=
  if day_of_week = 4 ∨ day_of_week = 5 then 1.2
  else if day_of_week = 0 then 0.9
  else 1

/-- `_calculate_seasonal_forecast`: recent-week average revenue scaled by
the weekday factor of `now + (i+1)` days, floored at 0, confidence 0.7. -/
def calculate_seasonal_forecast (today_weekday : Nat) (revenue_data : List ℚ)
    (periods : Nat) : List ForecastPoint :=
  let avg_revenue : ℚ :=
    if revenue_data.length < 7 then
      if revenue_data.isEmpty then 1000 else mean revenue_data
    else
      mean (lastN 7 revenue_data)
  (List.range periods).map (fun i =>
    ⟨i + 1, max 0 (avg_revenue * seasonal_factor ((today_weekday + i + 1) % 7)),
      0.7⟩)

/-- `_generate_default_forecast`: 1 unit per day at confidence 0.5. -/
def generate_default_forecast (periods : Nat) : List ForecastPoint :=
  (List.range periods).map (fun i => ⟨i + 1, 1, 0.5⟩)

/-- `_generate_default_category_forecast`: 100 per day at confidence 0.5. -/
def generate_default_category_forecast (periods : Nat) : List ForecastPoint :=
  (List.range periods).map (fun i => ⟨i + 1, 100, 0.5⟩)

/-- `_generate_default_revenue_forecast`: 1000 per day at confidence 0.5. -/
def generate_default_revenue_forecast (periods : Nat) : List ForecastPoint :=
  (List.range periods).map (fun i => ⟨i + 1, 1000, 0.5⟩)

/-- The result record of `get_inventory_forecast` (the echoed inputs and
the nested demand forecast are omitted). -/
structure InventoryForecast where
  stockout_day : Option Nat
  stockout_confidence : Option ℚ
  cumulative_demand : ℚ
  recommended_reorder : ℚ
  deriving DecidableEq, Repr

/-- The accumulation loop of `get_inventory_forecast`: `cum` is the running
`cumulative_demand`, `i` the number of predictions already consumed, and
`found` the `(stockout_day, stockout_confidence)` pair once set (the Python
code keeps iterating, guarded by `stockout_day is None`). -/
def inv_scan (current_stock : ℚ) :
    List ForecastPoint → ℚ → Nat → Option (Nat × ℚ) → Option (Nat × ℚ) × ℚ
  | [], cum, _, found => (found, cum)
  | p :: rest, cum, i, found =>
    let cum' := cum + p.value
    let found' :=
      if current_stock ≤ cum' ∧ found = none then some (i + 1, p.confidence)
      else found
    inv_scan current_stock rest cum' (i + 1) found'

/-- `get_inventory_forecast`, as a function of the current stock and the
prediction list returned by the demand forecast. -/
def get_inventory_forecast (current_stock : ℚ) (predictions : List ForecastPoint) :
    InventoryForecast :=
  let r := inv_scan current_stock predictions 0 0 none
  ⟨r.1.map Prod.fst, r.1.map Prod.snd, r.2, max 0 (r.2 - current_stock)⟩

/-- Cumulative forecast value over the first `d` periods. -/
def sumTake (d : Nat) (predictions : List ForecastPoint) : ℚ :=
  ((predictions.take d).map ForecastPoint.value).sum

/-- The shape every forecasting routine returns: exactly `n` points whose
period numbers are `1, 2, …, n` in order. -/
def contiguous (l : List ForecastPoint) (n : Nat) : Prop :=
  l.length = n ∧ l.map ForecastPoint.period = List.range' 1 n

/-- Python `str.lower()` over the characters of the text. -/
def py_lower (s : List Char) : List Char := s.map Char.toLower

/-- Does the second list start with the first one? -/
def lead_match : List Char → List Char → Bool
  | [], _ => true
  | _ :: _, [] => false
  | a :: as, b :: bs => a = b && lead_match as bs

/-- Python's substring containment `n in h` on character lists. -/
def has_sub (n : List Char) : List Char → Bool
  | [] => lead_match n []
  | c :: t => lead_match n (c :: t) || has_sub n t

/-- The fixed positive-word list of `analyze_sentiment`. -/
def positive_words : List (List Char) :=
  (["good", "great", "excellent", "amazing", "love", "perfect", "wonderful",
    "fantastic"]).map String.toList

/-- The fixed negative-word list of `analyze_sentiment`. -/
def negative_words : List (List Char) :=
  (["bad", "terrible", "awful", "hate", "worst", "disappointing", "poor",
    "horrible"]).map String.toList

/-- The result dict of `analyze_sentiment`. -/
structure SentimentResult where
  sentiment : String
  confidence : ℚ
  positive_score : Nat
  negative_score : Nat
  text_length : Nat
  deriving DecidableEq, Repr

/-- `analyze_sentiment`: count how many of the fixed positive/negative
words occur in the lower-cased text (`sum(1 for word in … if word in
text_lower)`), label by which count is strictly larger, confidence
`min(0.9, 0.5 + 0.1 * |count difference|)` (0.5 on a tie). -/
def analyze_sentiment (text : List Char) : SentimentResult :=
  let text_lower := py_lower text
  let positive_count := positive_words.countP (fun w => has_sub w text_lower)
  let negative_count := negative_words.countP (fun w => has_sub w text_lower)
  if negative_count < positive_count then
    ⟨"positive",
      min 0.9 (0.5 + ((positive_count : ℚ) - (negative_count : ℚ)) * 0.1),
      positive_count, negative_count, text.length⟩
  else if positive_count < negative_count then
    ⟨"negative",
      min 0.9 (0.5 + ((negative_count : ℚ) - (positive_count : ℚ)) * 0.1),
      positive_count, negative_count, text.length⟩
  else
    ⟨"neutral", 0.5, positive_count, negative_count, text.length⟩

/-- Occurrence counting as the specification words it: the number of
(possibly overlapping) positions at which `w` occurs as a substring.  This
definition follows the spec's words, for comparison with the code's
presence test. -/
def count_occurrences (w : List Char) : List Char → Nat
  | [] => if lead_match w [] then 1 else 0
  | c :: t => (if lead_match w (c :: t) then 1 else 0) + count_occurrences w t

/-- Total number of occurrences of the positive-word list in the
lower-cased text, as the spec describes the positive score. -/
def spec_positive_score (text : List Char) : Nat :=
  (positive_words.map (fun w => count_occurrences w (py_lower text))).sum

/-- Truncation to a 32-bit word. -/
def w32 (n : Nat) : Nat := n % 4294967296

/-- Left-rotation of a 32-bit word `x < 2^32` by `s ≤ 32` bits. -/
def rotl32 (x s : Nat) : Nat := w32 (x * 2 ^ s + x / 2 ^ (32 - s))

/-- Bitwise complement of a 32-bit word `x < 2^32`. -/
def not32 (x : Nat) : Nat := 4294967295 - x

/-- The 64 MD5 round constants `K[i] = ⌊2^32·|sin(i+1)|⌋`. -/
def md5_K : List Nat :=
  [0xd76aa478, 0xe8c7b756, 0x242070db, 0xc1bdceee,
   0xf57c0faf, 0x4787c62a, 0xa8304613, 0xfd469501,
   0x698098d8, 0x8b44f7af, 0xffff5bb1, 0x895cd7be,
   0x6b901122, 0xfd987193, 0xa679438e, 0x49b40821,
   0xf61e2562, 0xc040b340, 0x265e5a51, 0xe9b6c7aa,
   0xd62f105d, 0x02441453, 0xd8a1e681, 0xe7d3fbc8,
   0x21e1cde6, 0xc33707d6, 0xf4d50d87, 0x455a14ed,
   0xa9e3e905, 0xfcefa3f8, 0x676f02d9, 0x8d2a4c8a,
   0xfffa3942, 0x8771f681, 0x6d9d6122, 0xfde5380c,
   0xa4beea44, 0x4bdecfa9, 0xf6bb4b60, 0xbebfbc70,
   0x289b7ec6, 0xeaa127fa, 0xd4ef3085, 0x04881d05,
   0xd9d4d039, 0xe6db99e5, 0x1fa27cf8, 0xc4ac5665,
   0xf4292244, 0x432aff97, 0xab9423a7, 0xfc93a039,
   0x655b59c3, 0x8f0ccc92, 0xffeff47d, 0x85845dd1,
   0x6fa87e4f, 0xfe2ce6e0, 0xa3014314, 0x4e0811a1,
   0xf7537e82, 0xbd3af235, 0x2ad7d2bb, 0xeb86d391]

/-- The 64 MD5 per-round shift amounts. -/
def md5_shift : List Nat :=
  [7, 12, 17, 22, 7, 12, 17, 22, 7, 12, 17, 22, 7, 12, 17, 22,
   5, 9, 14, 20, 5, 9, 14, 20, 5, 9, 14, 20, 5, 9, 14, 20,
   4, 11, 16, 23, 4, 11, 16, 23, 4, 11, 16, 23, 4, 11, 16, 23,
   6, 10, 15, 21, 6, 10, 15, 21, 6, 10, 15, 21, 6, 10, 15, 21]

/-- Little-endian byte decomposition: the `k` low-order bytes of `n`. -/
def le_bytes (k n : Nat) : List Nat :=
  (List.range k).map (fun i => n / 256 ^ i % 256)

/-- MD5 padding: append `0x80`, zero-pad to 56 mod 64 bytes, then the
64-bit little-endian bit length. -/
def md5_pad (msg : List Nat) : List Nat :=
  msg ++ [128] ++ List.replicate ((119 - msg.length % 64) % 64) 0 ++
    le_bytes 8 (8 * msg.length % 2 ^ 64)

/-- Word `j` (little-endian) of a 64-byte chunk. -/
def chunk_word (chunk : List Nat) (j : Nat) : Nat :=
  chunk.getD (4 * j) 0 + 256 * chunk.getD (4 * j + 1) 0 +
    65536 * chunk.getD (4 * j + 2) 0 + 16777216 * chunk.getD (4 * j + 3) 0

/-- The four 32-bit registers of the MD5 compression function. -/
structure MD5State where
  a : Nat
  b : Nat
  c : Nat
  d : Nat
  deriving DecidableEq, Repr

/-- One MD5 round: the round function and message index depend on the
round number `i`, and the registers rotate. -/
def md5_round (chunk : List Nat) (st : MD5State) (i : Nat) : MD5State :=
  let fg : Nat × Nat :=
    if i < 16 then ((st.b &&& st.c) ||| (not32 st.b &&& st.d), i)
    else if i < 32 then ((st.d &&& st.b) ||| (not32 st.d &&& st.c),
      (5 * i + 1) % 16)
    else if i < 48 then (st.b ^^^ st.c ^^^ st.d, (3 * i + 5) % 16)
    else (st.c ^^^ (st.b ||| not32 st.d), (7 * i) % 16)
  let tmp := w32 (fg.1 + st.a + md5_K.getD i 0 + chunk_word chunk fg.2)
  ⟨st.d, w32 (st.b + rotl32 tmp (md5_shift.getD i 0)), st.b, st.c⟩

/-- Compress one 64-byte chunk into the state. -/
def md5_process_chunk (st : MD5State) (chunk : List Nat) : MD5State :=
  let r := (List.range 64).foldl (md5_round chunk) st
  ⟨w32 (st.a + r.a), w32 (st.b + r.b), w32 (st.c + r.c), w32 (st.d + r.d)⟩

/-- Process a padded message 64 bytes at a time.  The recursion is
structural in a fuel argument (each step consumes at least one byte, so
`fuel = length` suffices); this keeps the definition reducible inside the
kernel. -/
def md5_chunks_fuel : Nat → MD5State → List Nat → MD5State
  | 0, st, _ => st
  | _ + 1, st, [] => st
  | fuel + 1, st, b :: rest =>
    md5_chunks_fuel fuel (md5_process_chunk st (b :: rest.take 63))
      (rest.drop 63)

/-- Process a padded message 64 bytes at a time. -/
def md5_chunks (st : MD5State) (bytes : List Nat) : MD5State :=
  md5_chunks_fuel bytes.length st bytes

/-- UTF-8 encoding of one code point (what Python's `str.encode()` does
per character). -/
def utf8_encode_char (c : Char) : List Nat :=
  let n := c.toNat
  if n < 128 then [n]
  else if n < 2048 then [192 + n / 64, 128 + n % 64]
  else if n < 65536 then [224 + n / 4096, 128 + n / 64 % 64, 128 + n % 64]
  else [240 + n / 262144, 128 + n / 4096 % 64, 128 + n / 64 % 64,
    128 + n % 64]

/-- The UTF-8 bytes of a string (`text.encode()`). -/
def utf8_bytes (s : String) : List Nat := s.toList.flatMap utf8_encode_char

/-- Lower-case hex character of a nibble (0-9 then a-f). -/
def hex_char (n : Nat) : Char :=
  if n < 10 then Char.ofNat (48 + n) else Char.ofNat (87 + n)

/-- Two lower-case hex characters of a byte, high nibble first. -/
def byte_hex (b : Nat) : List Char := [hex_char (b / 16), hex_char (b % 16)]

/-- The MD5 initialization vector. -/
def md5_init : MD5State := ⟨0x67452301, 0xefcdab89, 0x98badcfe, 0x10325476⟩

/-- `hashlib.md5(text.encode()).hexdigest()` as a list of 32 characters. -/
def md5_hexdigest (text : String) : List Char :=
  let st := md5_chunks md5_init (md5_pad (utf8_bytes text))
  (le_bytes 4 st.a ++ le_bytes 4 st.b ++ le_bytes 4 st.c ++
    le_bytes 4 st.d).flatMap byte_hex

/-- `generate_embedding`: 768 components, component `i` derived from hex
digest character `i mod 32` as `(ord(ch) - ord('a')) / 26.0`.  The `getD`
default `'a'` is never used (the digest has 32 characters); the division is
exact in `ℚ`. -/
def generate_embedding (text : String) : List ℚ :=
  let text_hash := md5_hexdigest text
  (List.range 768).map (fun i =>
    (((text_hash.getD (i % text_hash.length) 'a').toNat : ℚ) - 97) / 26)

/-- Word characters of the `\w` class (ASCII letters, digits, underscore). -/
def is_word_char (c : Char) : Bool := c.isAlphanum || c = '_'

/-- Splits into maximal runs of word characters; `cur` is the reversed run
currently being read. -/
def tokenize_aux : List Char → List Char → List (List Char)
  | [], cur => if cur.isEmpty then [] else [cur.reverse]
  | c :: rest, cur =>
    if is_word_char c then tokenize_aux rest (c :: cur)
    else if cur.isEmpty then tokenize_aux rest []
    else cur.reverse :: tokenize_aux rest []

/-- The tokens of the lower-cased text, in text order. -/
def words_of (text : List Char) : List (List Char) :=
  tokenize_aux (py_lower text) []

/-- The fixed stop-word set of `extract_keywords`. -/
def stop_words : List (List Char) :=
  (["the", "a", "an", "and", "or", "but", "in", "on", "at", "to", "for",
    "of", "with", "by", "is", "are", "was", "were", "be", "been", "have",
    "has", "had", "do", "does", "did", "will", "would", "could", "should",
    "may", "might", "can", "this", "that", "these", "those", "i", "you",
    "he", "she", "it", "we", "they", "me", "him", "her", "us",
    "them"]).map String.toList

/-- The filter of `extract_keywords`: not a stop word and longer than 2. -/
def keyword_filter (w : List Char) : Bool :=
  decide (w ∉ stop_words) && decide (2 < w.length)

/-- The tokens surviving the stop-word/length filter, in text order. -/
def filtered_words (text : List Char) : List (List Char) :=
  (words_of text).filter keyword_filter

/-- One step of `collections.Counter`: increment the entry of `w` if
present, else append `(w, 1)` (dict insertion order = first occurrence). -/
def bump (acc : List (List Char × Nat)) (w : List Char) :
    List (List Char × Nat) :=
  if acc.any (fun q => q.1 = w) then
    acc.map (fun q => if q.1 = w then (q.1, q.2 + 1) else q)
  else acc ++ [(w, 1)]

/-- `collections.Counter(ws)` as an association list in first-occurrence
key order. -/
def tally (ws : List (List Char)) : List (List Char × Nat) :=
  ws.foldl bump []

/-- The largest count in the tally. -/
def max_count (cs : List (List Char × Nat)) : Nat :=
  cs.foldl (fun m q => max m q.2) 0

/-- Stable sort by count descending, as a counting sort: the entries of
count `max_count`, then `max_count - 1`, … then 1 (in original order
inside each group) — exactly what `heapq.nlargest` produces. -/
def sort_desc (cs : List (List Char × Nat)) : List (List Char × Nat) :=
  ((List.range (max_count cs + 1)).reverse).flatMap
    (fun k => cs.filter (fun q => q.2 = k))

/-- `Counter.most_common(n)`. -/
def most_common (n : Nat) (cs : List (List Char × Nat)) :
    List (List Char × Nat) :=
  (sort_desc cs).take n

/-- `extract_keywords`: the keys of the `max_keywords` most common
filtered tokens. -/
def extract_keywords (text : List Char) (max_keywords : Nat) :
    List (List Char) :=
  (most_common max_keywords (tally (filtered_words text))).map Prod.fst

/-- Number of occurrences of the token `w` in a token list. -/
def freq_in (l : List (List Char)) (w : List Char) : Nat :=
  l.countP (fun x => x = w)

/-- Index of the first occurrence of `w` (the list length if absent). -/
def first_idx (w : List Char) : List (List Char) → Nat
  | [] => 0
  | x :: t => if x = w then 0 else first_idx w t + 1

/-- A row of the products table (the columns the queries select). -/
structure Product where
  product_id : String
  name : String
  description : String
  price : ℚ
  category : String
  rating : ℚ
  image_url : String
  stock_quantity : Int
  deriving DecidableEq, Repr

/-- A returned recommendation: a product with its similarity score. -/
structure ScoredProduct where
  product : Product
  similarity_score : ℚ
  deriving DecidableEq, Repr

/-- `ORDER BY p.rating DESC, p.price ASC` as a total boolean order. -/
def order_by_rating_price (a b : Product) : Bool :=
  b.rating < a.rating || (a.rating = b.rating && a.price ≤ b.price)

/-- `ORDER BY similarity_score DESC` (`NULL`s last). -/
def order_by_sim_desc (sim : Product → Option ℚ) (a b : Product) : Bool :=
  match sim a, sim b with
  | none, _ => false
  | some _, none => true
  | some x, some y => y ≤ x

/-- Python's `row.similarity_score or 0.5`. -/
def score_or_half (s : Option ℚ) : ℚ :=
  match s with
  | none => 0.5
  | some x => if x = 0 then 0.5 else x

/-- `_get_popular_products_recommendations`: every in-stock product,
by rating descending then price ascending, at most `top_k`, score 0.5. -/
def get_popular_products_recommendations (products : List Product)
    (top_k : Nat) : List ScoredProduct :=
  let rows := products.filter (fun p => 0 < p.stock_quantity)
  ((rows.mergeSort order_by_rating_price).take top_k).map
    (fun p => ⟨p, 0.5⟩)

/-- `_get_fallback_recommendations`: products of the target's category
(`none` when the target product is unknown, in which case the popularity
fallback runs), excluding the target, in stock, at most `top_k`,
score 0.6. -/
def get_fallback_recommendations (target_category : Option String)
    (products : List Product) (product_id : String) (top_k : Nat) :
    List ScoredProduct :=
  match target_category with
  | none => get_popular_products_recommendations products top_k
  | some cat =>
    let rows := products.filter (fun p =>
      p.category = cat && p.product_id ≠ product_id && 0 < p.stock_quantity)
    ((rows.mergeSort order_by_rating_price).take top_k).map
      (fun p => ⟨p, 0.6⟩)

/-- `find_similar_products`: empty when the target has no stored embedding,
otherwise every embedded in-stock product other than the target, by
similarity descending, at most `top_k`. -/
def find_similar_products (target_embedding : Option (List ℚ))
    (has_embedding : Product → Bool) (sim : Product → Option ℚ)
    (products : List Product) (product_id : String) (top_k : Nat) :
    List ScoredProduct :=
  match target_embedding with
  | none => []
  | some _ =>
    let rows := products.filter (fun p =>
      has_embedding p && p.product_id ≠ product_id && 0 < p.stock_quantity)
    ((rows.mergeSort (order_by_sim_desc sim)).take top_k).map
      (fun p => ⟨p, score_or_half (sim p)⟩)

/-- A concrete in-stock catalog row used to witness the ranking claims. -/
def demo_in_stock : Product :=
  ⟨"p1", "Gadget", "A gadget", 10, "gadgets", 5, "img1", 3⟩

/-- A concrete out-of-stock catalog row used to witness the ranking
claims. -/
def demo_out_of_stock : Product :=
  ⟨"p2", "Widget", "A widget", 20, "gadgets", 4, "img2", 0⟩

/-! ## Properties -/

/-! ## Forecasting engine (`forecasting_simple.py`)

A forecast point is the `{'period': i+1, 'value': v, 'confidence': c,
'date': ...}` dict built by each forecasting routine; the `date` field (a
wall-clock ISO string) is not modelled.  The weekday used by the seasonal
forecast is modelled by passing today's weekday (Python `weekday()`,
Monday = 0) as an argument. -/

lemma contiguous_of_range_map (f : Nat → ForecastPoint)
    (h : ∀ i, (f i).period = i + 1) (n : Nat) :
    contiguous ((List.range n).map f) n := by
  constructor
  · simp
  · rw [List.map_map, List.range'_eq_map_range]
    apply List.map_congr_left
    intro a _
    simp [Function.comp, h a, Nat.add_comm]

/-- C1: every forecasting strategy (moving-average, trend-adjusted,
seasonal) and every default generator returns exactly `periods` points
whose period numbers are the contiguous sequence `1..periods` in order. -/
theorem forecast_periods_contiguous (sales revenue : List ℚ) (wd n : Nat) :
    contiguous (calculate_moving_average_forecast sales n) n ∧
    contiguous (calculate_trend_forecast sales n) n ∧
    contiguous (calculate_seasonal_forecast wd revenue n) n ∧
    contiguous (generate_default_forecast n) n ∧
    contiguous (generate_default_category_forecast n) n ∧
    contiguous (generate_default_revenue_forecast n) n := by
  refine ⟨?_, ?_, ?_, ?_, ?_, ?_⟩ <;>
    exact contiguous_of_range_map _ (fun i => rfl) n

lemma sumTake_zero (l : List ForecastPoint) : sumTake 0 l = 0 := by
  simp [sumTake]

lemma sumTake_cons_succ (p : ForecastPoint) (l : List ForecastPoint) (k : Nat) :
    sumTake (k + 1) (p :: l) = p.value + sumTake k l := by
  simp [sumTake]

/-- Once the stockout pair has been found, the scan never changes it. -/
lemma inv_scan_found (stock : ℚ) (l : List ForecastPoint) (x : Nat × ℚ) :
    ∀ cum i, (inv_scan stock l cum i (some x)).1 = some x := by
  induction l with
  | nil => intro cum i; simp [inv_scan]
  | cons p rest ih =>
    intro cum i
    simp only [inv_scan]
    rw [if_neg (by simp)]
    exact ih _ _

/-- Invariant of the stockout scan started with no pair found yet: a
reported day `d` lies past the `i` periods already consumed, the running
total first reaches the stock at relative period `d - i`, and every
earlier nonempty relative prefix stays below the stock. -/
lemma inv_scan_spec (stock : ℚ) (l : List ForecastPoint) :
    ∀ cum i d c, (inv_scan stock l cum i none).1 = some (d, c) →
      i < d ∧ d ≤ i + l.length ∧ stock ≤ cum + sumTake (d - i) l ∧
      ∀ j, 1 ≤ j → j < d - i → cum + sumTake j l < stock := by
  induction l with
  | nil => intro cum i d c h; simp [inv_scan] at h
  | cons p rest ih =>
    intro cum i d c h
    simp only [inv_scan] at h
    by_cases hc : stock ≤ cum + p.value
    · rw [if_pos ⟨hc, trivial⟩] at h
      rw [inv_scan_found] at h
      simp only [Option.some_inj, Prod.mk.injEq] at h
      obtain ⟨hd, hcf⟩ := h
      subst hd
      refine ⟨by omega, by simp only [List.length_cons]; omega, ?_, ?_⟩
      · have h1 : i + 1 - i = 1 := by omega
        rw [h1, show (1 : Nat) = 0 + 1 from rfl, sumTake_cons_succ,
          sumTake_zero]
        linarith
      · intro j hj1 hj2
        omega
    · rw [if_neg (fun hh => hc hh.1)] at h
      obtain ⟨h1, h2, h3, h4⟩ := ih (cum + p.value) (i + 1) d c h
      refine ⟨by omega, by simp only [List.length_cons]; omega, ?_, ?_⟩
      · have hk : d - i = (d - (i + 1)) + 1 := by omega
        rw [hk, sumTake_cons_succ]
        linarith
      · intro j hj1 hj2
        match j, hj1 with
        | 1, _ =>
          rw [show (1 : Nat) = 0 + 1 from rfl, sumTake_cons_succ, sumTake_zero]
          linarith
        | (k + 2), _ =>
          rw [show k + 2 = (k + 1) + 1 from rfl, sumTake_cons_succ]
          have := h4 (k + 1) (by omega) (by omega)
          linarith

/-- C2 (counterexample): with `current_stock = 0` and a single prediction
of value 5, the reported stockout day is 1, but the cumulative sum through
period `1 - 1 = 0` is the empty sum 0, which is not `< current_stock`. -/
theorem stockout_prev_sum_counterexample :
    (get_inventory_forecast 0 [⟨1, 5, 0.8⟩]).stockout_day = some 1 ∧
    ¬ (sumTake (1 - 1) [⟨1, 5, 0.8⟩] < (0 : ℚ)) := by
  constructor
  · norm_num [get_inventory_forecast, inv_scan]
  · rw [show (1 - 1 : Nat) = 0 from rfl, sumTake_zero]
    norm_num

/-- C2 (amended): whenever `get_inventory_forecast` reports a stockout day
`d`, that day is one of the forecast periods, the cumulative forecast over
periods `1..d` is ≥ `current_stock`, and — provided `d > 1` — the
cumulative sum over periods `1..(d-1)` is `< current_stock` (for `d = 1`
the preceding sum is the empty sum 0, which is below the stock only when
the stock is positive). -/
theorem stockout_day_spec (stock : ℚ) (preds : List ForecastPoint) (d : Nat)
    (hd : (get_inventory_forecast stock preds).stockout_day = some d) :
    1 ≤ d ∧ d ≤ preds.length ∧ stock ≤ sumTake d preds ∧
    (1 < d → sumTake (d - 1) preds < stock) := by
  simp only [get_inventory_forecast, Option.map_eq_some'] at hd
  obtain ⟨⟨d', c⟩, hr, hfst⟩ := hd
  simp only at hfst
  subst hfst
  obtain ⟨h1, h2, h3, h4⟩ := inv_scan_spec stock preds 0 0 d' c hr
  refine ⟨by omega, by omega, by simpa using h3, ?_⟩
  intro hd1
  have := h4 (d' - 1) (by omega) (by omega)
  linarith

/-- Witness for the amended C2 at stock 3 and predictions of value 2 each:
the stockout day is 2, the sum through day 2 is 4 ≥ 3, and the sum through
day 1 is 2 < 3. -/
theorem stockout_day_spec_witness :
    1 ≤ 2 ∧ 2 ≤ ([⟨1, 2, 0.8⟩, ⟨2, 2, 0.8⟩] : List ForecastPoint).length ∧
    (3 : ℚ) ≤ sumTake 2 [⟨1, 2, 0.8⟩, ⟨2, 2, 0.8⟩] ∧
    (1 < 2 → sumTake (2 - 1) [⟨1, 2, 0.8⟩, ⟨2, 2, 0.8⟩] < (3 : ℚ)) :=
  stockout_day_spec 3 [⟨1, 2, 0.8⟩, ⟨2, 2, 0.8⟩] 2
    (by norm_num [get_inventory_forecast, inv_scan])

/-- C9: with `current_stock ≤ 0` and a nonempty prediction list of
nonnegative values, the very first period already reaches the stock, so the
stockout day is 1 and the confidence is the first prediction's. -/
theorem stockout_immediate (stock : ℚ) (p : ForecastPoint)
    (rest : List ForecastPoint) (hstock : stock ≤ 0)
    (hvals : ∀ q ∈ p :: rest, 0 ≤ q.value) :
    (get_inventory_forecast stock (p :: rest)).stockout_day = some 1 ∧
    (get_inventory_forecast stock (p :: rest)).stockout_confidence =
      some p.confidence := by
  have hv : 0 ≤ p.value := hvals p (by simp)
  have hscan : (inv_scan stock (p :: rest) 0 0 none).1 =
      some (1, p.confidence) := by
    simp only [inv_scan]
    rw [if_pos ⟨by linarith, trivial⟩, inv_scan_found]
  constructor <;> simp [get_inventory_forecast, hscan]

/-- Witness for C9: stock 0 against a single prediction of value 5. -/
theorem stockout_immediate_witness :
    (get_inventory_forecast 0 [⟨1, 5, 0.8⟩]).stockout_day = some 1 ∧
    (get_inventory_forecast 0 [⟨1, 5, 0.8⟩]).stockout_confidence =
      some (0.8 : ℚ) :=
  stockout_immediate 0 ⟨1, 5, 0.8⟩ [] (by norm_num)
    (by intro q hq; rw [List.mem_singleton] at hq; subst hq; norm_num)

/-- C10: the moving-average forecast of an empty series yields `periods`
points of value 1 at confidence 0.8; the confidence-0.5 output belongs to
the separate `_generate_default_forecast` routine, whose points all carry
confidence 0.5. -/
theorem moving_average_empty_default (periods : Nat) :
    (calculate_moving_average_forecast [] periods).length = periods ∧
    (∀ p ∈ calculate_moving_average_forecast [] periods,
      p.value = 1 ∧ p.confidence = 0.8) ∧
    (∀ p ∈ generate_default_forecast periods,
      p.value = 1 ∧ p.confidence = 0.5) := by
  refine ⟨by simp [calculate_moving_average_forecast], ?_, ?_⟩
  · intro p hp
    simp only [calculate_moving_average_forecast, List.isEmpty_nil,
      List.mem_map] at hp
    obtain ⟨i, _, rfl⟩ := hp
    simp
  · intro p hp
    simp only [generate_default_forecast, List.mem_map] at hp
    obtain ⟨i, _, rfl⟩ := hp
    exact ⟨rfl, rfl⟩

/-- Witness for C10 at `periods = 3`, checking the first point of each. -/
theorem moving_average_empty_default_witness :
    (calculate_moving_average_forecast [] 3).length = 3 ∧
    ((⟨1, 1, 0.8⟩ : ForecastPoint).value = 1 ∧
      (⟨1, 1, 0.8⟩ : ForecastPoint).confidence = 0.8) ∧
    ((⟨1, 1, 0.5⟩ : ForecastPoint).value = 1 ∧
      (⟨1, 1, 0.5⟩ : ForecastPoint).confidence = 0.5) :=
  ⟨(moving_average_empty_default 3).1,
    (moving_average_empty_default 3).2.1 ⟨1, 1, 0.8⟩
      (by
        simp only [calculate_moving_average_forecast]
        exact List.mem_map.mpr ⟨0, by norm_num, rfl⟩),
    (moving_average_empty_default 3).2.2 ⟨1, 1, 0.5⟩
      (by
        simp only [generate_default_forecast]
        exact List.mem_map.mpr ⟨0, by norm_num, rfl⟩)⟩

/-! ## Sentiment heuristic (`ai_engine_simple.py`, `analyze_sentiment`)

Text is a `List Char`; Python's `str.lower` is mapped `Char.toLower`, and
Python's substring test `word in text` is `has_sub`. -/

/-- C3: the confidence always lies in `[0.5, 0.9]`, and the sentiment label
is `"positive"` exactly when the positive score is strictly larger,
`"negative"` exactly when the negative score is strictly larger, and
`"neutral"` exactly on a tie. -/
theorem analyze_sentiment_spec (text : List Char) :
    (0.5 ≤ (analyze_sentiment text).confidence ∧
      (analyze_sentiment text).confidence ≤ 0.9) ∧
    ((analyze_sentiment text).sentiment = "positive" ↔
      (analyze_sentiment text).negative_score <
        (analyze_sentiment text).positive_score) ∧
    ((analyze_sentiment text).sentiment = "negative" ↔
      (analyze_sentiment text).positive_score <
        (analyze_sentiment text).negative_score) ∧
    ((analyze_sentiment text).sentiment = "neutral" ↔
      (analyze_sentiment text).positive_score =
        (analyze_sentiment text).negative_score) := by
  simp only [analyze_sentiment]
  set pc := positive_words.countP (fun w => has_sub w (py_lower text)) with hpc
  set nc := negative_words.countP (fun w => has_sub w (py_lower text)) with hnc
  rcases Nat.lt_trichotomy nc pc with h | h | h
  · rw [if_pos h]
    dsimp only
    have h1 : (1 : ℚ) ≤ (pc : ℚ) - (nc : ℚ) := by
      have h2 : (nc + 1 : ℕ) ≤ pc := h
      have h3 := (Nat.cast_le (α := ℚ)).mpr h2
      push_cast at h3
      linarith
    refine ⟨⟨le_min (by norm_num) (by linarith), min_le_left _ _⟩, ?_, ?_, ?_⟩
    · exact ⟨fun _ => h, fun _ => rfl⟩
    · exact ⟨fun hx => absurd hx (by decide), fun hx => absurd hx (by omega)⟩
    · exact ⟨fun hx => absurd hx (by decide), fun hx => absurd hx (by omega)⟩
  · rw [if_neg (by omega), if_neg (by omega)]
    dsimp only
    refine ⟨⟨le_refl _, by norm_num⟩, ?_, ?_, ?_⟩
    · exact ⟨fun hx => absurd hx (by decide), fun hx => absurd hx (by omega)⟩
    · exact ⟨fun hx => absurd hx (by decide), fun hx => absurd hx (by omega)⟩
    · exact ⟨fun _ => h.symm, fun _ => rfl⟩
  · rw [if_neg (by omega), if_pos h]
    dsimp only
    have h1 : (1 : ℚ) ≤ (nc : ℚ) - (pc : ℚ) := by
      have h2 : (pc + 1 : ℕ) ≤ nc := h
      have h3 := (Nat.cast_le (α := ℚ)).mpr h2
      push_cast at h3
      linarith
    refine ⟨⟨le_min (by norm_num) (by linarith), min_le_left _ _⟩, ?_, ?_, ?_⟩
    · exact ⟨fun hx => absurd hx (by decide), fun hx => absurd hx (by omega)⟩
    · exact ⟨fun _ => h, fun _ => rfl⟩
    · exact ⟨fun hx => absurd hx (by decide), fun hx => absurd hx (by omega)⟩

/-- C8 (counterexample): on the text `"good good"`, the word `"good"`
occurs twice, so the spec's occurrence count is 2, but the code's
`positive_score` is 1 — each listed word contributes at most 1. -/
theorem sentiment_score_counterexample :
    (analyze_sentiment ("good good".toList)).positive_score = 1 ∧
    spec_positive_score ("good good".toList) = 2 := by
  constructor
  · rfl
  · rfl

lemma count_occurrences_pos (w : List Char) (l : List Char) :
    0 < count_occurrences w l ↔ has_sub w l = true := by
  induction l with
  | nil =>
    by_cases h : lead_match w [] <;> simp [count_occurrences, has_sub, h]
  | cons c t ih =>
    by_cases h : lead_match w (c :: t) <;>
      simp [count_occurrences, has_sub, h, ih]

lemma countP_ext {α : Type} (l : List α) (p q : α → Bool)
    (h : ∀ a, p a = q a) : l.countP p = l.countP q := by
  have : p = q := funext h
  rw [this]

/-- C8 (amended): `positive_score` (resp. `negative_score`) equals the
number of words of the fixed list that occur **at least once** as a
case-insensitive substring of the text — a listed word occurring `n ≥ 1`
times contributes exactly 1, not `n`. -/
theorem sentiment_scores_presence (text : List Char) :
    (analyze_sentiment text).positive_score =
      positive_words.countP
        (fun w => decide (0 < count_occurrences w (py_lower text))) ∧
    (analyze_sentiment text).negative_score =
      negative_words.countP
        (fun w => decide (0 < count_occurrences w (py_lower text))) := by
  have hext : ∀ w, has_sub w (py_lower text) =
      decide (0 < count_occurrences w (py_lower text)) := by
    intro w
    by_cases h : has_sub w (py_lower text)
    · rw [h, decide_eq_true ((count_occurrences_pos w _).mpr h)]
    · have hh : ¬ (0 < count_occurrences w (py_lower text)) := by
        rw [count_occurrences_pos]; exact h
      rw [decide_eq_false hh, Bool.eq_false_iff.mpr h]
  have hp := countP_ext positive_words _ _ hext
  have hn := countP_ext negative_words _ _ hext
  have hps : (analyze_sentiment text).positive_score =
      positive_words.countP (fun w => has_sub w (py_lower text)) := by
    simp only [analyze_sentiment]
    split
    · rfl
    · split
      · rfl
      · rfl
  have hns : (analyze_sentiment text).negative_score =
      negative_words.countP (fun w => has_sub w (py_lower text)) := by
    simp only [analyze_sentiment]
    split
    · rfl
    · split
      · rfl
      · rfl
  exact ⟨hps.trans hp, hns.trans hn⟩

/-! ## Pseudo-embedding generator (`ai_engine_simple.py`, `generate_embedding`)

The code hashes the UTF-8 encoding of the input with `hashlib.md5` and
reads the 32-character lower-case hex digest.  MD5 is implemented here over
`Nat` byte lists (all words reduced mod `2^32`), so that digests of
concrete inputs evaluate inside Lean. -/

/-- C6: `generate_embedding` is deterministic — equal input texts give
component-wise equal vectors — and every returned vector has length
exactly 768. -/
theorem generate_embedding_deterministic_768 :
    (∀ t₁ t₂ : String, t₁ = t₂ →
      generate_embedding t₁ = generate_embedding t₂) ∧
    (∀ t : String, (generate_embedding t).length = 768) :=
  ⟨fun _ _ h => h ▸ rfl, fun t => by simp [generate_embedding]⟩

/-- Witness for C6 at the input `"a"`. -/
theorem generate_embedding_deterministic_768_witness :
    generate_embedding "a" = generate_embedding "a" ∧
    (generate_embedding "a").length = 768 :=
  ⟨generate_embedding_deterministic_768.1 "a" "a" rfl,
    generate_embedding_deterministic_768.2 "a"⟩

/-- Rewriting of `generate_embedding` through `mkRat`, used to evaluate it
on concrete inputs (`Rat` division does not reduce definitionally, `mkRat`
does). -/
lemma generate_embedding_eq_mkRat (t : String) :
    generate_embedding t = (List.range 768).map (fun i =>
      mkRat ((((md5_hexdigest t).getD (i % (md5_hexdigest t).length)
        'a').toNat : Int) - 97) 26) := by
  simp only [generate_embedding]
  apply List.map_congr_left
  intro i _
  rw [Rat.mkRat_eq_divInt, Rat.divInt_eq_div]
  push_cast
  ring

set_option maxRecDepth 8000 in
/-- C7 (counterexample): the digest of `""` is
`d41d8cd98f00b204e9800998ecf8427e`; its second character `'4'` yields the
component `(52 - 97)/26 = -45/26 < 0`, outside `[0/26, 5/26]`. -/
theorem embedding_range_counterexample :
    ¬ (∀ x ∈ generate_embedding "", (0 : ℚ) ≤ x ∧ x ≤ 5 / 26) := by
  intro h
  have hm : mkRat (-45) 26 ∈ generate_embedding "" := by
    rw [generate_embedding_eq_mkRat]
    decide
  have h0 := (h _ hm).1
  rw [show mkRat (-45) 26 = -45 / 26 by
    rw [Rat.mkRat_eq_divInt, Rat.divInt_eq_div]; norm_num] at h0
  norm_num at h0

lemma le_bytes_lt (k n : Nat) : ∀ b ∈ le_bytes k n, b < 256 := by
  intro b hb
  simp only [le_bytes, List.mem_map, List.mem_range] at hb
  obtain ⟨i, _, rfl⟩ := hb
  exact Nat.mod_lt _ (by norm_num)

lemma hex_char_range (m : Nat) (hm : m < 16) :
    (48 ≤ (hex_char m).toNat ∧ (hex_char m).toNat ≤ 57) ∨
    (97 ≤ (hex_char m).toNat ∧ (hex_char m).toNat ≤ 102) := by
  interval_cases m <;> decide

/-- Every character of an MD5 hex digest is one of `0-9a-f`. -/
lemma md5_hexdigest_chars (t : String) :
    ∀ c ∈ md5_hexdigest t,
      (48 ≤ c.toNat ∧ c.toNat ≤ 57) ∨ (97 ≤ c.toNat ∧ c.toNat ≤ 102) := by
  intro c hc
  simp only [md5_hexdigest, List.mem_flatMap, List.mem_append] at hc
  obtain ⟨b, hb, hcb⟩ := hc
  have hb256 : b < 256 := by
    rcases hb with ((hb | hb) | hb) | hb <;> exact le_bytes_lt _ _ b hb
  simp only [byte_hex, List.mem_cons, List.not_mem_nil, or_false] at hcb
  rcases hcb with rfl | rfl
  · exact hex_char_range _ (by omega)
  · exact hex_char_range _ (by omega)

/-- C7 (amended): every embedding component is `(ord(ch) - 97)/26` for a
hex-digest character `ch ∈ 0-9a-f`, hence lies in `[-49/26, 5/26]`: the
letters `a`-`f` give values in `[0/26, 5/26]`, but the digits `0`-`9` give
negative values down to `-49/26`. -/
theorem embedding_components_hex_range (t : String) (x : ℚ)
    (hx : x ∈ generate_embedding t) : -49 / 26 ≤ x ∧ x ≤ 5 / 26 := by
  simp only [generate_embedding, List.mem_map, List.mem_range] at hx
  obtain ⟨i, _, rfl⟩ := hx
  rcases Nat.eq_zero_or_pos (md5_hexdigest t).length with hlen | hlen
  · rw [List.length_eq_zero.mp hlen]
    norm_num [List.getD, show ('a').toNat = 97 from rfl]
  · have hmem : (md5_hexdigest t).getD (i % (md5_hexdigest t).length) 'a' ∈
        md5_hexdigest t := by
      rw [List.getD_eq_getElem _ _ (Nat.mod_lt _ hlen)]
      exact List.getElem_mem _
    have hr := md5_hexdigest_chars t _ hmem
    set m := ((md5_hexdigest t).getD (i % (md5_hexdigest t).length) 'a').toNat
      with hm
    rcases hr with ⟨h1, h2⟩ | ⟨h1, h2⟩ <;>
      [(have c1 : (48 : ℚ) ≤ (m : ℚ) := by exact_mod_cast h1;
        have c2 : ((m : ℚ)) ≤ 57 := by exact_mod_cast h2;
        constructor <;> linarith);
       (have c1 : (97 : ℚ) ≤ (m : ℚ) := by exact_mod_cast h1;
        have c2 : ((m : ℚ)) ≤ 102 := by exact_mod_cast h2;
        constructor <;> linarith)]

set_option maxRecDepth 8000 in
/-- Witness for the amended C7: the first component of the embedding of
`"a"` (digest `0cc175b9…`, first character `'0'`) is `-49/26`, which
attains the lower bound. -/
theorem embedding_components_hex_range_witness :
    (mkRat (-49) 26 ∈ generate_embedding "a") ∧
    -49 / 26 ≤ mkRat (-49) 26 ∧ (mkRat (-49) 26 : ℚ) ≤ 5 / 26 :=
  ⟨by rw [generate_embedding_eq_mkRat]; decide,
    embedding_components_hex_range "a" (mkRat (-49) 26)
      (by rw [generate_embedding_eq_mkRat]; decide)⟩

/-! ## Keyword extractor (`ai_engine_simple.py`, `extract_keywords`)

`re.findall(r'\b\w+\b', text.lower())` returns the maximal runs of word
characters of the lower-cased text; stop words and tokens of length ≤ 2
are dropped; `collections.Counter` tallies the remaining tokens in
first-occurrence order; `Counter.most_common(n)` returns the entries
sorted by count descending — CPython's `heapq.nlargest` is stable, so
entries of equal count stay in first-insertion order.  `most_common` is
modelled as the equivalent counting sort from the highest count down. -/

lemma first_idx_append_of_mem (w : List Char) (t l : List (List Char))
    (h : w ∈ t) : first_idx w (t ++ l) = first_idx w t := by
  induction t with
  | nil => simp at h
  | cons x t' ih =>
    by_cases hx : x = w
    · simp [first_idx, hx]
    · have hw : w ∈ t' := by
        rcases List.mem_cons.mp h with h' | h'
        · exact absurd h'.symm hx
        · exact h'
      simp [first_idx, hx, ih hw]

lemma first_idx_lt_length (w : List Char) (t : List (List Char))
    (h : w ∈ t) : first_idx w t < t.length := by
  induction t with
  | nil => simp at h
  | cons x t' ih =>
    by_cases hx : x = w
    · simp [first_idx, hx]
    · have hw : w ∈ t' := by
        rcases List.mem_cons.mp h with h' | h'
        · exact absurd h'.symm hx
        · exact h'
      simp only [first_idx, if_neg hx, List.length_cons]
      exact Nat.succ_lt_succ (ih hw)

lemma first_idx_append_of_not_mem (w : List Char) (t l : List (List Char))
    (h : w ∉ t) : first_idx w (t ++ l) = t.length + first_idx w l := by
  induction t with
  | nil => simp
  | cons x t' ih =>
    have hx : ¬ (x = w) := fun hh => h (by simp [hh])
    have hw : w ∉ t' := fun hh => h (List.mem_cons_of_mem _ hh)
    rw [List.cons_append,
      show first_idx w (x :: (t' ++ l)) = first_idx w (t' ++ l) + 1 by
        simp [first_idx, hx],
      ih hw, List.length_cons]
    omega

lemma tally_append_one (ws : List (List Char)) (w : List Char) :
    tally (ws ++ [w]) = bump (tally ws) w := by
  simp [tally, List.foldl_append]

lemma bump_preserve_fst (w : List Char) (q : List Char × Nat) :
    (if q.1 = w then (q.1, q.2 + 1) else q).1 = q.1 := by
  by_cases hq : q.1 = w <;> simp [hq]

lemma tally_key_mem (ws : List (List Char)) :
    ∀ q ∈ tally ws, q.1 ∈ ws := by
  induction ws using List.reverseRecOn with
  | nil => intro q hq; simp [tally] at hq
  | append_singleton t w ih =>
    intro q hq
    rw [tally_append_one, bump] at hq
    by_cases h : (tally t).any (fun r => r.1 = w)
    · rw [if_pos h] at hq
      obtain ⟨r, hr, rfl⟩ := List.mem_map.mp hq
      rw [bump_preserve_fst]
      exact List.mem_append_left _ (ih r hr)
    · rw [if_neg h] at hq
      rcases List.mem_append.mp hq with hq | hq
      · exact List.mem_append_left _ (ih q hq)
      · simp only [List.mem_singleton] at hq
        subst hq
        simp

lemma tally_key_complete (ws : List (List Char)) :
    ∀ a ∈ ws, ∃ q ∈ tally ws, q.1 = a := by
  induction ws using List.reverseRecOn with
  | nil => simp
  | append_singleton t w ih =>
    intro a ha
    rw [tally_append_one, bump]
    by_cases h : (tally t).any (fun r => r.1 = w)
    · rw [if_pos h]
      rcases List.mem_append.mp ha with ha | ha
      · obtain ⟨q, hq, hqa⟩ := ih a ha
        refine ⟨if q.1 = w then (q.1, q.2 + 1) else q,
          List.mem_map_of_mem _ hq, ?_⟩
        rw [bump_preserve_fst]
        exact hqa
      · simp only [List.mem_singleton] at ha
        subst ha
        obtain ⟨r, hr, hrw⟩ := List.any_eq_true.mp h
        simp only [decide_eq_true_eq] at hrw
        refine ⟨if r.1 = a then (r.1, r.2 + 1) else r,
          List.mem_map_of_mem _ hr, ?_⟩
        rw [bump_preserve_fst]
        exact hrw
    · rw [if_neg h]
      rcases List.mem_append.mp ha with ha | ha
      · obtain ⟨q, hq, hqa⟩ := ih a ha
        exact ⟨q, List.mem_append_left _ hq, hqa⟩
      · simp only [List.mem_singleton] at ha
        subst ha
        exact ⟨(a, 1), by simp, rfl⟩

lemma freq_in_append_one (t : List (List Char)) (w a : List Char) :
    freq_in (t ++ [w]) a = freq_in t a + (if w = a then 1 else 0) := by
  by_cases h : w = a <;>
    simp [freq_in, List.countP_append, List.countP_cons, h]

lemma freq_in_eq_zero_of_not_mem (t : List (List Char)) (a : List Char)
    (h : a ∉ t) : freq_in t a = 0 := by
  rw [freq_in, List.countP_eq_zero]
  intro x hx
  simp only [decide_eq_true_eq]
  intro hxa
  exact h (hxa ▸ hx)

lemma tally_not_mem_of_not_any (t : List (List Char)) (w : List Char)
    (h : ¬ (tally t).any (fun r => r.1 = w)) : w ∉ t := by
  intro hw
  obtain ⟨q, hq, hqw⟩ := tally_key_complete t w hw
  exact h (List.any_eq_true.mpr ⟨q, hq, by simp [hqw]⟩)

lemma tally_count (ws : List (List Char)) :
    ∀ q ∈ tally ws, q.2 = freq_in ws q.1 := by
  induction ws using List.reverseRecOn with
  | nil => intro q hq; simp [tally] at hq
  | append_singleton t w ih =>
    intro q hq
    rw [tally_append_one, bump] at hq
    by_cases h : (tally t).any (fun r => r.1 = w)
    · rw [if_pos h] at hq
      obtain ⟨r, hr, rfl⟩ := List.mem_map.mp hq
      have hr2 := ih r hr
      by_cases hrw : r.1 = w
      · rw [if_pos hrw]
        rw [freq_in_append_one, if_pos hrw.symm, ← hr2]
      · rw [if_neg hrw]
        rw [freq_in_append_one, if_neg (fun hh => hrw hh.symm), ← hr2]
        omega
    · rw [if_neg h] at hq
      have hwt : w ∉ t := tally_not_mem_of_not_any t w h
      rcases List.mem_append.mp hq with hq | hq
      · have hqw : ¬ (q.1 = w) := by
          intro hh
          exact hwt (hh ▸ tally_key_mem t q hq)
        rw [freq_in_append_one, if_neg (fun hh => hqw hh.symm),
          ← ih q hq]
        omega
      · simp only [List.mem_singleton] at hq
        subst hq
        rw [freq_in_append_one, if_pos rfl,
          freq_in_eq_zero_of_not_mem t w hwt]

lemma tally_pairwise (ws : List (List Char)) :
    (tally ws).Pairwise (fun q r => first_idx q.1 ws < first_idx r.1 ws) := by
  induction ws using List.reverseRecOn with
  | nil => simp [tally]
  | append_singleton t w ih =>
    rw [tally_append_one, bump]
    by_cases h : (tally t).any (fun r => r.1 = w)
    · rw [if_pos h, List.pairwise_map]
      refine ih.imp_of_mem ?_
      intro q r hq hr hqr
      rw [bump_preserve_fst, bump_preserve_fst,
        first_idx_append_of_mem _ _ _ (tally_key_mem t q hq),
        first_idx_append_of_mem _ _ _ (tally_key_mem t r hr)]
      exact hqr
    · rw [if_neg h, List.pairwise_append]
      have hwt : w ∉ t := tally_not_mem_of_not_any t w h
      refine ⟨?_, List.pairwise_singleton _ _, ?_⟩
      · refine ih.imp_of_mem ?_
        intro q r hq hr hqr
        rw [first_idx_append_of_mem _ _ _ (tally_key_mem t q hq),
          first_idx_append_of_mem _ _ _ (tally_key_mem t r hr)]
        exact hqr
      · intro q hq r hr
        simp only [List.mem_singleton] at hr
        subst hr
        have hq1 : q.1 ∈ t := tally_key_mem t q hq
        rw [first_idx_append_of_mem _ _ _ hq1,
          first_idx_append_of_not_mem _ _ _ hwt]
        have := first_idx_lt_length q.1 t hq1
        simp only [first_idx]
        omega

lemma mem_of_mem_sort_desc (cs : List (List Char × Nat))
    (q : List Char × Nat) (hq : q ∈ sort_desc cs) : q ∈ cs := by
  simp only [sort_desc, List.mem_flatMap] at hq
  obtain ⟨k, _, hqf⟩ := hq
  exact (List.mem_filter.mp hqf).1

lemma sort_desc_pairwise (cs : List (List Char × Nat))
    (S : List Char × Nat → List Char × Nat → Prop) (hS : cs.Pairwise S) :
    (sort_desc cs).Pairwise
      (fun q r => r.2 < q.2 ∨ (q.2 = r.2 ∧ S q r)) := by
  rw [sort_desc, List.pairwise_flatMap]
  constructor
  · intro k _
    refine (hS.filter _).imp_of_mem ?_
    intro q r hq hr hqr
    have hqk := (List.mem_filter.mp hq).2
    have hrk := (List.mem_filter.mp hr).2
    simp only [decide_eq_true_eq] at hqk hrk
    exact Or.inr ⟨hqk.trans hrk.symm, hqr⟩
  · have h2 : ((List.range (max_count cs + 1)).reverse).Pairwise
        (fun k1 k2 => k2 < k1) := by
      rw [List.pairwise_reverse]
      exact List.pairwise_lt_range _
    refine h2.imp ?_
    intro k1 k2 hk x hx y hy
    have hx2 := (List.mem_filter.mp hx).2
    have hy2 := (List.mem_filter.mp hy).2
    simp only [decide_eq_true_eq] at hx2 hy2
    exact Or.inl (by omega)

lemma freq_in_filter (p : List Char → Bool) (l : List (List Char))
    (a : List Char) (ha : p a = true) :
    freq_in (l.filter p) a = freq_in l a := by
  induction l with
  | nil => rfl
  | cons x t ih =>
    by_cases hx : p x
    · rw [List.filter_cons_of_pos hx]
      simp [freq_in, List.countP_cons] at ih ⊢
      omega
    · rw [List.filter_cons_of_neg (by simp [hx])]
      have hxa : ¬ (x = a) := fun hh => hx (hh ▸ ha)
      simp [freq_in, List.countP_cons, hxa] at ih ⊢
      omega

lemma first_idx_filter_lt (p : List Char → Bool) (l : List (List Char))
    (a b : List Char) (hpa : p a = true) (hpb : p b = true)
    (h : first_idx a (l.filter p) < first_idx b (l.filter p)) :
    first_idx a l < first_idx b l := by
  induction l with
  | nil => simp [first_idx] at h
  | cons x t ih =>
    by_cases hx : p x
    · rw [List.filter_cons_of_pos hx] at h
      by_cases hxa : x = a
      · by_cases hxb : x = b
        · rw [first_idx, first_idx, if_pos hxa, if_pos hxb] at h
          omega
        · simp only [first_idx, if_pos hxa, if_neg hxb]
          omega
      · by_cases hxb : x = b
        · rw [first_idx, first_idx, if_neg hxa, if_pos hxb] at h
          omega
        · rw [first_idx, first_idx, if_neg hxa, if_neg hxb] at h
          simp only [first_idx, if_neg hxa, if_neg hxb]
          have := ih (by omega)
          omega
    · rw [List.filter_cons_of_neg (by simp [hx])] at h
      have hxa : ¬ (x = a) := fun hh => hx (hh ▸ hpa)
      have hxb : ¬ (x = b) := fun hh => hx (hh ▸ hpb)
      simp only [first_idx, if_neg hxa, if_neg hxb]
      have := ih h
      omega

/-- C5: the keyword list is ordered by non-increasing token frequency, and
two keywords of equal frequency appear in the order of their first
occurrence among the tokens of the text (the stable tie-break of
`Counter.most_common`). -/
theorem extract_keywords_ordered (text : List Char) (k i j : Nat)
    (hij : i < j) (hj : j < (extract_keywords text k).length) :
    freq_in (words_of text) ((extract_keywords text k).getD j []) ≤
      freq_in (words_of text) ((extract_keywords text k).getD i []) ∧
    (freq_in (words_of text) ((extract_keywords text k).getD i []) =
        freq_in (words_of text) ((extract_keywords text k).getD j []) →
      first_idx ((extract_keywords text k).getD i []) (words_of text) <
        first_idx ((extract_keywords text k).getD j []) (words_of text)) := by
  have h1 := tally_pairwise (filtered_words text)
  have h2 := sort_desc_pairwise (tally (filtered_words text)) _ h1
  have h3 := h2.sublist (List.take_sublist k _)
  have h4 : ((sort_desc (tally (filtered_words text))).take k).Pairwise
      (fun q r =>
        freq_in (filtered_words text) r.1 < freq_in (filtered_words text) q.1 ∨
        (freq_in (filtered_words text) q.1 = freq_in (filtered_words text) r.1 ∧
          first_idx q.1 (filtered_words text) <
            first_idx r.1 (filtered_words text))) := by
    refine h3.imp_of_mem ?_
    intro q r hq hr hqr
    have hq' := mem_of_mem_sort_desc _ q (List.take_subset _ _ hq)
    have hr' := mem_of_mem_sort_desc _ r (List.take_subset _ _ hr)
    have cq := tally_count _ q hq'
    have cr := tally_count _ r hr'
    rcases hqr with h | ⟨he, hs⟩
    · exact Or.inl (by rw [← cq, ← cr]; exact h)
    · exact Or.inr ⟨by rw [← cq, ← cr]; exact he, hs⟩
  have h5 : (extract_keywords text k).Pairwise (fun a b =>
      freq_in (filtered_words text) b < freq_in (filtered_words text) a ∨
      (freq_in (filtered_words text) a = freq_in (filtered_words text) b ∧
        first_idx a (filtered_words text) <
          first_idx b (filtered_words text))) := by
    rw [extract_keywords, most_common, List.pairwise_map]
    exact h4
  have hkeys : ∀ a ∈ extract_keywords text k, keyword_filter a = true := by
    intro a ha
    rw [extract_keywords, most_common] at ha
    obtain ⟨q, hq, rfl⟩ := List.mem_map.mp ha
    have hq' := mem_of_mem_sort_desc _ q (List.take_subset _ _ hq)
    have := tally_key_mem _ q hq'
    exact (List.mem_filter.mp this).2
  have h6 : (extract_keywords text k).Pairwise (fun a b =>
      freq_in (words_of text) b < freq_in (words_of text) a ∨
      (freq_in (words_of text) a = freq_in (words_of text) b ∧
        first_idx a (words_of text) < first_idx b (words_of text))) := by
    refine h5.imp_of_mem ?_
    intro a b ha hb hab
    have hfa := hkeys a ha
    have hfb := hkeys b hb
    rw [filtered_words] at hab
    rcases hab with h | ⟨he, hs⟩
    · exact Or.inl (by
        rw [← freq_in_filter keyword_filter _ a hfa,
          ← freq_in_filter keyword_filter _ b hfb]
        exact h)
    · refine Or.inr ⟨by
        rw [← freq_in_filter keyword_filter _ a hfa,
          ← freq_in_filter keyword_filter _ b hfb]
        exact he, ?_⟩
      exact first_idx_filter_lt keyword_filter _ a b hfa hfb hs
  rw [List.pairwise_iff_getElem] at h6
  have hi : i < (extract_keywords text k).length := Nat.lt_trans hij hj
  have hp := h6 i j hi hj hij
  rw [List.getD_eq_getElem _ _ hi, List.getD_eq_getElem _ _ hj]
  rcases hp with h | ⟨he, hs⟩
  · exact ⟨Nat.le_of_lt h, fun heq => absurd heq (by omega)⟩
  · exact ⟨Nat.le_of_eq he.symm, fun _ => hs⟩

/-- Witness for C5 on `"dog cat dog cat"`: both keywords have frequency 2;
`"dog"` (first seen at token 0) precedes `"cat"` (token 1). -/
theorem extract_keywords_ordered_witness :
    freq_in (words_of "dog cat dog cat".toList)
        ((extract_keywords "dog cat dog cat".toList 10).getD 1 []) ≤
      freq_in (words_of "dog cat dog cat".toList)
        ((extract_keywords "dog cat dog cat".toList 10).getD 0 []) ∧
    first_idx ((extract_keywords "dog cat dog cat".toList 10).getD 0 [])
        (words_of "dog cat dog cat".toList) <
      first_idx ((extract_keywords "dog cat dog cat".toList 10).getD 1 [])
        (words_of "dog cat dog cat".toList) :=
  ⟨(extract_keywords_ordered "dog cat dog cat".toList 10 0 1 (by decide)
      (by decide)).1,
    (extract_keywords_ordered "dog cat dog cat".toList 10 0 1 (by decide)
      (by decide)).2 (by decide)⟩

/-! ## Product similarity ranking (`vector_search.py`)

The three ranking tiers are SQL queries over the products table.  A query
row set is modelled as a list of `Product`; `WHERE` clauses become
`filter`, `ORDER BY` a stable `mergeSort`, and `LIMIT top_k` a `take`.
The embedding join of `find_similar_products` is modelled by a
`has_embedding` predicate, and the SQL-computed cosine `similarity_score`
column by an opaque `sim` function (`NULL` = `none`, placed last by the
descending sort as BigQuery does); Python's `row.similarity_score or 0.5`
maps both `NULL` and `0` to the 0.5 default. -/

lemma ranked_rows_spec (rows : List Product) (le : Product → Product → Bool)
    (top_k : Nat) (f : Product → ScoredProduct)
    (hf : ∀ p, (f p).product = p) :
    (∀ q ∈ ((rows.mergeSort le).take top_k).map f, q.product ∈ rows) ∧
    (((rows.mergeSort le).take top_k).map f).length ≤ top_k := by
  constructor
  · intro q hq
    obtain ⟨p, hp, rfl⟩ := List.mem_map.mp hq
    rw [hf]
    exact List.mem_mergeSort.mp (List.take_subset _ _ hp)
  · rw [List.length_map, List.length_take]
    omega

/-- C4: each ranking tier — embedding similarity, category-match fallback,
popularity fallback — returns only products with positive stock, and at
most `top_k` of them. -/
theorem ranking_in_stock_and_bounded (target_embedding : Option (List ℚ))
    (has_embedding : Product → Bool) (sim : Product → Option ℚ)
    (target_category : Option String) (products : List Product)
    (product_id : String) (top_k : Nat) :
    ((∀ q ∈ find_similar_products target_embedding has_embedding sim
        products product_id top_k, 0 < q.product.stock_quantity) ∧
      (find_similar_products target_embedding has_embedding sim products
        product_id top_k).length ≤ top_k) ∧
    ((∀ q ∈ get_fallback_recommendations target_category products
        product_id top_k, 0 < q.product.stock_quantity) ∧
      (get_fallback_recommendations target_category products product_id
        top_k).length ≤ top_k) ∧
    ((∀ q ∈ get_popular_products_recommendations products top_k,
        0 < q.product.stock_quantity) ∧
      (get_popular_products_recommendations products top_k).length ≤
        top_k) := by
  have hpop : (∀ q ∈ get_popular_products_recommendations products top_k,
      0 < q.product.stock_quantity) ∧
      (get_popular_products_recommendations products top_k).length ≤
        top_k := by
    have h := ranked_rows_spec
      (products.filter (fun p => 0 < p.stock_quantity))
      order_by_rating_price top_k (fun p => ⟨p, 0.5⟩) (fun p => rfl)
    refine ⟨?_, h.2⟩
    intro q hq
    have := h.1 q hq
    have := (List.mem_filter.mp this).2
    simpa using this
  refine ⟨?_, ?_, hpop⟩
  · match target_embedding with
    | none => exact ⟨fun q hq => absurd hq (List.not_mem_nil q), by
        simp [find_similar_products]⟩
    | some e =>
      have h := ranked_rows_spec
        (products.filter (fun p => has_embedding p &&
          p.product_id ≠ product_id && 0 < p.stock_quantity))
        (order_by_sim_desc sim) top_k
        (fun p => ⟨p, score_or_half (sim p)⟩) (fun p => rfl)
      refine ⟨?_, h.2⟩
      intro q hq
      have := h.1 q hq
      have h2 := (List.mem_filter.mp this).2
      simp only [Bool.and_eq_true, decide_eq_true_eq] at h2
      exact h2.2
  · match target_category with
    | none => exact hpop
    | some cat =>
      have h := ranked_rows_spec
        (products.filter (fun p => p.category = cat &&
          p.product_id ≠ product_id && 0 < p.stock_quantity))
        order_by_rating_price top_k (fun p => ⟨p, 0.6⟩) (fun p => rfl)
      refine ⟨?_, h.2⟩
      intro q hq
      have := h.1 q hq
      have h2 := (List.mem_filter.mp this).2
      simp only [Bool.and_eq_true, decide_eq_true_eq] at h2
      exact h2.2

/-- Witness for C4 on a two-product catalog: the popularity tier returns
the one in-stock product, and every tier respects the `top_k` bound. -/
theorem ranking_in_stock_and_bounded_witness :
    ((0 : Int) <
      (⟨demo_in_stock, 0.5⟩ : ScoredProduct).product.stock_quantity) ∧
    (get_popular_products_recommendations
      [demo_in_stock, demo_out_of_stock] 5).length ≤ 5 ∧
    (find_similar_products none (fun _ => true) (fun _ => none)
      [demo_in_stock, demo_out_of_stock] "p0" 5).length ≤ 5 ∧
    (get_fallback_recommendations (some "gadgets")
      [demo_in_stock, demo_out_of_stock] "p0" 5).length ≤ 5 := by
  have T := ranking_in_stock_and_bounded none (fun _ => true) (fun _ => none)
    (some "gadgets") [demo_in_stock, demo_out_of_stock] "p0" 5
  have hres : get_popular_products_recommendations
      [demo_in_stock, demo_out_of_stock] 5 = [⟨demo_in_stock, 0.5⟩] := by
    simp [get_popular_products_recommendations, demo_in_stock,
      demo_out_of_stock]
  exact ⟨T.2.2.1 ⟨demo_in_stock, 0.5⟩
      (by rw [hres]; exact List.mem_singleton.mpr rfl),
    T.2.2.2, T.1.2, T.2.1.2⟩

end ECommerce

